import Mathlib

/- Verification of the LLM tutorial-generation pipeline in nodes.py.

   Modelling conventions (shallow embedding):
   - Python strings are modelled as List Char (ASCII fragment);
   - Python integers as Int, list positions as Nat;
   - YAML scalar values returned by yaml.safe_load as the inductive YVal;
   - raised ValueError exceptions as Except StageErr, where each StageErr
     constructor corresponds to one raise site in nodes.py and carries the
     data interpolated into that raise site message. -/

instance {ε α : Type} [DecidableEq ε] [DecidableEq α] : DecidableEq (Except ε α) := fun x y =>
  match x, y with
  | .ok a, .ok b =>
    if h : a = b then .isTrue (by rw [h]) else .isFalse (fun hc => h (Except.ok.inj hc))
  | .error a, .error b =>
    if h : a = b then .isTrue (by rw [h]) else .isFalse (fun hc => h (Except.error.inj hc))
  | .ok _, .error _ => .isFalse (fun hc => Except.noConfusion hc)
  | .error _, .ok _ => .isFalse (fun hc => Except.noConfusion hc)

/-- Characters stripped by Python str.strip with no arguments. -/
def pyIsSpace (c : Char) : Bool :=
  c == ' ' || c == '\t' || c == '\n' || c == '\r' || c == '\x0b' || c == '\x0c'

/-- Decimal digit test used throughout (ASCII 48..57). -/
def isDig (c : Char) : Bool :=
  48 ≤ c.toNat && c.toNat ≤ 57

/-- Python str.strip: drop whitespace from both ends. -/
def pyStrip (s : List Char) : List Char :=
  ((s.dropWhile pyIsSpace).reverse.dropWhile pyIsSpace).reverse

/-- Python s.split changed to first component only: everything before the first
hash character, the whole string if there is none (models s.split with a hash
argument, index 0). -/
def takeBeforeHash : List Char → List Char
  | [] => []
  | c :: cs => if c = '#' then [] else c :: takeBeforeHash cs

/-- The decimal digit character for d in 0..9 (out of range values clamp to 9;
all call sites pass d below 10). -/
def digitChar (d : Nat) : Char :=
  match d with
  | 0 => '0' | 1 => '1' | 2 => '2' | 3 => '3' | 4 => '4'
  | 5 => '5' | 6 => '6' | 7 => '7' | 8 => '8' | _ => '9'

/-- Fuel-driven decimal rendering of a natural number, most significant digit
first. Structural on the fuel so that concrete instances evaluate. -/
def natDigitsAux : Nat → Nat → List Char
  | 0, _ => []
  | fuel + 1, n =>
    if n < 10 then [digitChar n]
    else natDigitsAux fuel (n / 10) ++ [digitChar (n % 10)]

/-- Decimal rendering of a natural number, as produced by Python str. -/
def natDigits (n : Nat) : List Char := natDigitsAux (n + 1) n

/-- Python str applied to an int. -/
def intRepr (n : Int) : List Char :=
  if n < 0 then '-' :: natDigits (-n).toNat else natDigits n.toNat

/-- Value of a digit list read most significant digit first, from an
accumulator. -/
def digitsFold (a : Nat) (ds : List Char) : Nat :=
  ds.foldl (fun acc c => 10 * acc + (c.toNat - 48)) a

/-- Digit-run parser for Python int applied to a string: consumes digits with
single underscores allowed between digits, as in int of "1_0". -/
def digitsCore : Nat → List Char → Option Nat
  | a, [] => some a
  | a, c :: cs =>
    if isDig c then digitsCore (10 * a + (c.toNat - 48)) cs
    else if c = '_' then
      match cs with
      | [] => none
      | d :: ds => if isDig d then digitsCore (10 * a + (d.toNat - 48)) ds else none
    else none

/-- Parse a nonempty digit run; the first character must be a digit. -/
def parseDigits : List Char → Option Nat
  | [] => none
  | c :: cs => if isDig c then digitsCore (c.toNat - 48) cs else none

/-- Python int applied to a string that has already been stripped of
surrounding whitespace (every call site in nodes.py strips first): optional
sign followed by a digit run. -/
def pyInt (s : List Char) : Option Int :=
  match s with
  | [] => none
  | c :: cs =>
    if c = '+' then (parseDigits cs).map (fun m => (m : Int))
    else if c = '-' then (parseDigits cs).map (fun m => -(m : Int))
    else (parseDigits (c :: cs)).map (fun m => (m : Int))

/-- Count of newline characters in a string. -/
def countNl : List Char → Nat
  | [] => 0
  | c :: cs => (if c = '\n' then 1 else 0) + countNl cs

/-- Python s.split on a newline separator: list of the newline-free segments,
with the empty string giving a single empty segment. -/
def splitNl : List Char → List (List Char)
  | [] => [[]]
  | c :: cs =>
    if c = '\n' then [] :: splitNl cs
    else
      match splitNl cs with
      | [] => [[c]]
      | h :: t => (c :: h) :: t

/-- Python newline join: segments separated by a single newline. -/
def joinNl : List (List Char) → List Char
  | [] => []
  | [l] => l
  | l :: ls => l ++ '\n' :: joinNl ls

/-- Python s.startswith p. -/
def pyStartsWith (s p : List Char) : Bool := p.isPrefixOf s

/-- Python s.endswith p. -/
def pyEndsWith (s p : List Char) : Bool := p.reverse.isPrefixOf s.reverse

/-- Drop trailing newline characters (used to state the footer claim). -/
def rstripNl (s : List Char) : List Char :=
  (s.reverse.dropWhile (fun c => c == '\n')).reverse

/-- A YAML scalar as produced by yaml.safe_load, as far as the index coercions
can distinguish them. yBool is separate from yInt because Python treats bool
as a subtype of int, so isinstance checks accept it; yOther covers every other
value (float, null, list, dict, date) and carries the text Python str would
render for it. -/
inductive YVal where
  | yInt : Int → YVal
  | yBool : Bool → YVal
  | yStr : List Char → YVal
  | yOther : List Char → YVal
deriving DecidableEq

/-- Python str applied to a YVal. -/
def pyStr : YVal → List Char
  | .yInt n => intRepr n
  | .yBool b => if b then ("True").toList else ("False").toList
  | .yStr s => s
  | .yOther r => r

/-- Index coercion of IdentifyAbstractions.exec (nodes.py lines 217-222), also
used verbatim by OrderChapters.exec (lines 429-434): an isinstance int check
(which accepts bool, a Python int subtype), then a string containing a hash
parsed before the hash, then int of str of the value. Returns none exactly
when the Python code raises ValueError or TypeError from the conversion. -/
def ia_coerce : YVal → Option Int
  | .yInt n => some n
  | .yBool b => some (if b then 1 else 0)
  | .yStr s =>
    if '#' ∈ s then pyInt (pyStrip (takeBeforeHash s))
    else pyInt (pyStrip s)
  | .yOther r => pyInt (pyStrip r)

/-- Index coercion of AnalyzeRelationships.exec (nodes.py lines 344-345):
int of str of the value, split before the first hash, stripped. -/
def ar_coerce (v : YVal) : Option Int :=
  pyInt (pyStrip (takeBeforeHash (pyStr v)))

/-- Each constructor corresponds to one ValueError raise site of nodes.py and
carries the data interpolated into its message:
- intConv: the ValueError raised by the int builtin itself;
- parseEntry e name: "Could not parse index from entry: e in item name";
- invalidFileIndex idx name fc: "Invalid file index idx found in item name.
  Max index is fc - 1.";
- relParse f t: "Could not parse indices from relationship: ...";
- invalidRelIndex f t n: "Invalid index in relationship: from=f, to=t. ...";
- orderParseEntry e: "Could not parse index from ordered list entry: e";
- invalidOrderIndex idx n: "Invalid index idx in ordered list. ...";
- duplicateOrderIndex idx: "Duplicate index idx found in ordered list.";
- orderIncomplete len n missing: "Ordered list length (len) does not match
  number of abstractions (n). Missing indices: missing". -/
inductive StageErr where
  | intConv : StageErr
  | parseEntry : YVal → List Char → StageErr
  | invalidFileIndex : Int → List Char → Nat → StageErr
  | relParse : YVal → YVal → StageErr
  | invalidRelIndex : Int → Int → Nat → StageErr
  | orderParseEntry : YVal → StageErr
  | invalidOrderIndex : Int → Nat → StageErr
  | duplicateOrderIndex : Int → StageErr
  | orderIncomplete : Nat → Nat → List Int → StageErr
deriving DecidableEq

/-- Body of the per-entry try block of IdentifyAbstractions.exec (nodes.py
lines 216-226): coerce the entry, then check the range, raising
invalidFileIndex when out of range. -/
def entryCheckInner (fc : Nat) (nm : List Char) (e : YVal) : Except StageErr Int :=
  match ia_coerce e with
  | none => .error .intConv
  | some idx =>
    if 0 ≤ idx ∧ idx < (fc : Int) then .ok idx
    else .error (.invalidFileIndex idx nm fc)

/-- Per-entry validation of IdentifyAbstractions.exec including its except
clause (nodes.py lines 216-228): any ValueError raised inside the try block,
including the range-check raise, is caught and replaced by the parseEntry
error. -/
def entryCheck (fc : Nat) (nm : List Char) (e : YVal) : Except StageErr Int :=
  match entryCheckInner fc nm e with
  | .ok idx => .ok idx
  | .error _ => .error (.parseEntry e nm)

/-- The file_indices validation loop of IdentifyAbstractions.exec (nodes.py
lines 214-228): validated indices accumulate in entry order. -/
def validateFileIndices (fc : Nat) (nm : List Char) : List YVal → Except StageErr (List Int)
  | [] => .ok []
  | e :: es =>
    match entryCheck fc nm e with
    | .error err => .error err
    | .ok i =>
      match validateFileIndices fc nm es with
      | .error err => .error err
      | .ok is => .ok (i :: is)

/-- Insert into a strictly ascending list, keeping it strictly ascending and
skipping values already present. -/
def insSD (x : Int) : List Int → List Int
  | [] => [x]
  | y :: ys => if x < y then x :: y :: ys else if x = y then y :: ys else y :: insSD x ys

/-- Python sorted applied to list applied to set: the ascending duplicate-free
list with the same members (nodes.py line 230). -/
def sortedDedup (l : List Int) : List Int := l.foldr insSD []

/-- One abstraction entry of the parsed YAML after the schema checks of
nodes.py lines 206-211 (name, description, file_indices present and of the
right types). -/
structure AbsItem where
  name : List Char
  description : List Char
  fileIndices : List YVal
deriving DecidableEq

/-- Validation and normalization of one abstraction item by
IdentifyAbstractions.exec (nodes.py lines 213-236): validate the indices,
then store name, description and the sorted deduplicated index list. -/
def identifyItem (fc : Nat) (item : AbsItem) : Except StageErr (List Char × List Char × List Int) :=
  match validateFileIndices fc item.name item.fileIndices with
  | .error err => .error err
  | .ok v => .ok (item.name, item.description, sortedDedup v)

/-- Body of the per-entry try block of OrderChapters.exec (nodes.py lines
428-441): coerce the entry with the same flexible coercion as
IdentifyAbstractions, check the range, then check for duplicates against the
indices already seen. -/
def ocEntryInner (n : Nat) (seen : List Int) (e : YVal) : Except StageErr Int :=
  match ia_coerce e with
  | none => .error .intConv
  | some idx =>
    if 0 ≤ idx ∧ idx < (n : Int) then
      if idx ∈ seen then .error (.duplicateOrderIndex idx) else .ok idx
    else .error (.invalidOrderIndex idx n)

/-- Per-entry validation of OrderChapters.exec including its except clause
(nodes.py lines 427-444): any ValueError raised inside the try block,
including the range-check and duplicate-check raises, is caught and replaced
by the orderParseEntry error. -/
def ocEntry (n : Nat) (seen : List Int) (e : YVal) : Except StageErr Int :=
  match ocEntryInner n seen e with
  | .ok idx => .ok idx
  | .error _ => .error (.orderParseEntry e)

/-- The entry loop of OrderChapters.exec (nodes.py lines 425-444), carrying
the ordered list and the seen set (modelled as a list, appended in sync). -/
def ocLoop (n : Nat) : List YVal → List Int → List Int → Except StageErr (List Int × List Int)
  | [], ordered, seen => .ok (ordered, seen)
  | e :: es, ordered, seen =>
    match ocEntry n seen e with
    | .error err => .error err
    | .ok idx => ocLoop n es (ordered ++ [idx]) (seen ++ [idx])

/-- The set difference between the range of n and the seen indices, as
computed by the completeness raise of nodes.py line 448. -/
def missingIndices (n : Nat) (seen : List Int) : List Int :=
  ((List.range n).map (fun i => (i : Int))).filter (fun i => !(seen.contains i))

/-- OrderChapters.exec validation (nodes.py lines 419-451): run the entry
loop, then the completeness check, which is outside the per-entry try block
and therefore not masked. -/
def orderChaptersValidate (n : Nat) (entries : List YVal) : Except StageErr (List Int) :=
  match ocLoop n entries [] [] with
  | .error err => .error err
  | .ok (ordered, seen) =>
    if ordered.length = n then .ok ordered
    else .error (.orderIncomplete ordered.length n (missingIndices n seen))

/-- One relationship entry of the parsed YAML after the schema checks of
AnalyzeRelationships.exec (nodes.py lines 336-340): from_abstraction,
to_abstraction and a string label are present. -/
structure RelItem where
  fromA : YVal
  toA : YVal
  label : List Char
deriving DecidableEq

/-- A validated relationship as stored by nodes.py lines 348-352. -/
structure RelOut where
  fromIdx : Int
  toIdx : Int
  label : List Char
deriving DecidableEq

/-- Body of the per-relationship try block of AnalyzeRelationships.exec
(nodes.py lines 343-352): coerce both endpoints, then check both ranges. -/
def relCheckInner (n : Nat) (r : RelItem) : Except StageErr (Int × Int) :=
  match ar_coerce r.fromA with
  | none => .error .intConv
  | some fi =>
    match ar_coerce r.toA with
    | none => .error .intConv
    | some ti =>
      if 0 ≤ fi ∧ fi < (n : Int) ∧ 0 ≤ ti ∧ ti < (n : Int) then .ok (fi, ti)
      else .error (.invalidRelIndex fi ti n)

/-- Per-relationship validation including the except clause (nodes.py lines
343-354): any ValueError inside the try block, including the range-check
raise, is caught and replaced by the relParse error. -/
def relCheck (n : Nat) (r : RelItem) : Except StageErr (Int × Int) :=
  match relCheckInner n r with
  | .ok p => .ok p
  | .error _ => .error (.relParse r.fromA r.toA)

/-- The relationships validation loop of AnalyzeRelationships.exec (nodes.py
lines 332-354). -/
def analyzeRelValidate (n : Nat) : List RelItem → Except StageErr (List RelOut)
  | [] => .ok []
  | r :: rs =>
    match relCheck n r with
    | .error err => .error err
    | .ok (fi, ti) =>
      match analyzeRelValidate n rs with
      | .error err => .error err
      | .ok os => .ok ({ fromIdx := fi, toIdx := ti, label := r.label } :: os)

/-- The abstraction listing lines built by AnalyzeRelationships.prep (nodes.py
line 259): one line "i # name" per abstraction, indices counting from i. -/
def listingFrom (i : Nat) : List (List Char) → List (List Char)
  | [] => []
  | nm :: rest => (natDigits i ++ ' ' :: '#' :: ' ' :: nm) :: listingFrom (i + 1) rest

/-- The abstraction_listing string passed from AnalyzeRelationships.prep to
exec (nodes.py line 275): the listing lines joined by newlines. -/
def abstractionListing (names : List (List Char)) : List Char :=
  joinNl (listingFrom 0 names)

/-- The num_abstractions bound computed by AnalyzeRelationships.exec (nodes.py
line 333): the number of newline-separated segments of the listing. -/
def numAbstractionsBound (names : List (List Char)) : Nat :=
  (splitNl (abstractionListing names)).length

/-- The heading number test string of WriteChapters.exec (nodes.py line 593):
"# Chapter n", with no colon and no name. -/
def headingNum (n : Nat) : List Char :=
  ("# Chapter ").toList ++ natDigits n

/-- The expected chapter heading of WriteChapters.exec (nodes.py line 592):
"# Chapter n: name". -/
def heading (n : Nat) (nm : List Char) : List Char :=
  headingNum n ++ ':' :: ' ' :: nm

/-- Heading normalization of WriteChapters.exec (nodes.py lines 592-600): if
the stripped response does not start with "# Chapter n", either replace its
first line when that line starts with a hash mark, or prepend the expected
heading; otherwise return the response unchanged. -/
def normalizeHeading (n : Nat) (nm cc : List Char) : List Char :=
  if pyStartsWith (pyStrip cc) (headingNum n) then cc
  else if pyStartsWith (pyStrip ((splitNl (pyStrip cc)).headD [])) ['#'] then
    joinNl (heading n nm :: (splitNl (pyStrip cc)).tail)
  else heading n nm ++ '\n' :: '\n' :: cc

/-- Python c.isalnum restricted to ASCII, as used for filename sanitization. -/
def pyIsAlnum (c : Char) : Bool := c.isAlpha || c.isDigit

/-- The safe_name sanitization of nodes.py lines 475 and 671: every
non-alphanumeric character replaced by an underscore, then lowercased. -/
def safeName (nm : List Char) : List Char :=
  (nm.map (fun c => if pyIsAlnum c then c else '_')).map Char.toLower

/-- Python format of a natural number with a two-digit zero-padded minimum
width, as in the 02d format specifier. -/
def pad2 (n : Nat) : List Char :=
  if n < 10 then '0' :: natDigits n else natDigits n

/-- The chapter filename of nodes.py lines 476 and 673 for zero-based position
i: the 1-based position zero-padded to two digits, an underscore, the
sanitized lowercase name, and the markdown extension. -/
def chapterFilename (i : Nat) (nm : List Char) : List Char :=
  pad2 (i + 1) ++ '_' :: (safeName nm ++ ('.' :: 'm' :: 'd' :: []))

/-- The attribution footer appended by CombineTutorial.prep (nodes.py line
680). -/
def footerText : List Char :=
  ("---\n\nGenerated by [AI Codebase Knowledge Builder](https://github.com/The-Pocket/Tutorial-Codebase-Knowledge)").toList

/-- Footer attachment of CombineTutorial.prep (nodes.py lines 677-680): append
a double newline unless the chapter text already ends with one, then append
the attribution footer. -/
def addAttribution (cc : List Char) : List Char :=
  (if pyEndsWith cc ('\n' :: '\n' :: []) then cc else cc ++ ('\n' :: '\n' :: [])) ++ footerText

/-- Modelled from the spec words for claim comparison only: the final chapter
document is the chapter text with exactly one blank line before the footer,
regardless of how many trailing newlines the text already ends with. -/
def addAttributionPerSpec (cc : List Char) : List Char :=
  rstripNl cc ++ '\n' :: '\n' :: footerText

/-- Ordered-dictionary insertion with Python dict semantics: an existing key
keeps its position and gets the new value, a new key is appended. -/
def dictInsert (k v : List Char) : List (List Char × List Char) → List (List Char × List Char)
  | [] => [(k, v)]
  | (k', v') :: rest =>
    if k = k' then (k, v) :: rest else (k', v') :: dictInsert k v rest

/-- The composite key "i # path" used by get_content_for_indices (nodes.py
line 88). -/
def fileKey (i : Int) (path : List Char) : List Char :=
  intRepr i ++ ' ' :: '#' :: ' ' :: path

/-- The loop of get_content_for_indices (nodes.py lines 84-89), threading the
content map. -/
def gcfiAux (files : List (List Char × List Char)) : List Int → List (List Char × List Char) → List (List Char × List Char)
  | [], m => m
  | i :: is, m =>
    if h : 0 ≤ i ∧ i < (files.length : Int) then
      gcfiAux files is
        (dictInsert (fileKey i (files.get ⟨i.toNat, by omega⟩).1)
          (files.get ⟨i.toNat, by omega⟩).2 m)
    else gcfiAux files is m

/-- Scope of the coercion-agreement claim: every YAML value except booleans,
with non-scalar values restricted to those whose textual rendering contains no
hash character, true of every rendering Python produces for YAML floats,
nulls, lists, dicts and dates. -/
def coerceAgreeScope : YVal → Prop
  | .yBool _ => False
  | .yOther r => '#' ∉ r
  | _ => True

/-- Distinctness of the keys of a modelled Python dict. -/
def UniqKeys (m : List (List Char × List Char)) : Prop := (m.map Prod.fst).Nodup

/-- get_content_for_indices (nodes.py lines 83-89): map each in-range
requested index to its file content under the composite key; out-of-range
indices are silently skipped. -/
def get_content_for_indices (files : List (List Char × List Char)) (indices : List Int) : List (List Char × List Char) :=
  gcfiAux files indices []

theorem isDig_ne {c d : Char} (h1 : isDig c = true) (h2 : isDig d = false) : c ≠ d := by
  intro he
  rw [he, h2] at h1
  cases h1

theorem isDig_not_space {c : Char} (h : isDig c = true) : pyIsSpace c = false := by
  by_contra hh
  have hs : pyIsSpace c = true := by
    cases hv : pyIsSpace c
    · exact absurd hv hh
    · rfl
  simp only [pyIsSpace, Bool.or_eq_true, beq_iff_eq] at hs
  rcases hs with ((((h5 | h5) | h5) | h5) | h5) | h5 <;> subst h5 <;> simp [isDig] at h

theorem digitChar_isDig (d : Nat) : isDig (digitChar d) = true := by
  unfold digitChar
  split <;> decide

theorem digitChar_toNat {d : Nat} (h : d < 10) : (digitChar d).toNat - 48 = d := by
  interval_cases d <;> decide

theorem natDigitsAux_isDig : ∀ f n, n < f → ∀ c ∈ natDigitsAux f n, isDig c = true := by
  intro f
  induction f with
  | zero => intro n h; exact absurd h (Nat.not_lt_zero n)
  | succ f ih =>
    intro n h c hc
    by_cases h10 : n < 10
    · simp only [natDigitsAux, if_pos h10, List.mem_singleton] at hc
      subst hc
      exact digitChar_isDig n
    · simp only [natDigitsAux, if_neg h10, List.mem_append, List.mem_singleton] at hc
      rcases hc with h1 | h2
      · have hd : n / 10 < n := Nat.div_lt_self (by omega) (by omega)
        exact ih (n / 10) (by omega) c h1
      · subst h2
        exact digitChar_isDig _

theorem natDigitsAux_ne_nil : ∀ f n, n < f → natDigitsAux f n ≠ [] := by
  intro f n h
  cases f with
  | zero => exact absurd h (Nat.not_lt_zero n)
  | succ f =>
    by_cases h10 : n < 10
    · simp [natDigitsAux, if_pos h10]
    · simp [natDigitsAux, if_neg h10]

theorem digitsFold_append (a : Nat) (l1 l2 : List Char) :
    digitsFold a (l1 ++ l2) = digitsFold (digitsFold a l1) l2 := by
  simp [digitsFold, List.foldl_append]

theorem natDigitsAux_fold : ∀ f n a, n < f →
    digitsFold a (natDigitsAux f n) = a * 10 ^ (natDigitsAux f n).length + n := by
  intro f
  induction f with
  | zero => intro n a h; exact absurd h (Nat.not_lt_zero n)
  | succ f ih =>
    intro n a h
    by_cases h10 : n < 10
    · simp only [natDigitsAux, if_pos h10]
      have hv : (digitChar n).toNat - 48 = n := digitChar_toNat h10
      simp [digitsFold, hv]
      omega
    · simp only [natDigitsAux, if_neg h10]
      have hd : n / 10 < n := Nat.div_lt_self (by omega) (by omega)
      have hf : n / 10 < f := by omega
      rw [digitsFold_append, ih (n / 10) a hf]
      have hv : (digitChar (n % 10)).toNat - 48 = n % 10 := digitChar_toNat (by omega)
      simp [digitsFold, hv, pow_succ]
      rw [← mul_assoc]
      set L := (natDigitsAux f (n / 10)).length with hL
      have hmm : a * 10 ^ L * 10 = 10 * (a * 10 ^ L) := by ring
      rw [hmm]
      generalize a * 10 ^ L = m
      omega

theorem natDigitsAux_irrel : ∀ f g n, n < f → n < g → natDigitsAux f n = natDigitsAux g n := by
  intro f
  induction f with
  | zero => intro g n h; exact absurd h (Nat.not_lt_zero n)
  | succ f ih =>
    intro g n h1 h2
    cases g with
    | zero => exact absurd h2 (Nat.not_lt_zero n)
    | succ g =>
      by_cases h10 : n < 10
      · simp [natDigitsAux, if_pos h10]
      · simp only [natDigitsAux, if_neg h10]
        have hd : n / 10 < n := Nat.div_lt_self (by omega) (by omega)
        rw [ih g (n / 10) (by omega) (by omega)]

theorem natDigits_isDig (n : Nat) : ∀ c ∈ natDigits n, isDig c = true :=
  natDigitsAux_isDig (n + 1) n (Nat.lt_succ_self n)

theorem natDigits_ne_nil (n : Nat) : natDigits n ≠ [] :=
  natDigitsAux_ne_nil (n + 1) n (Nat.lt_succ_self n)

theorem natDigits_fold (n a : Nat) :
    digitsFold a (natDigits n) = a * 10 ^ (natDigits n).length + n :=
  natDigitsAux_fold (n + 1) n a (Nat.lt_succ_self n)

theorem digitsCore_cons_dig (a : Nat) {c : Char} (hc : isDig c = true) (cs : List Char) :
    digitsCore a (c :: cs) = digitsCore (10 * a + (c.toNat - 48)) cs := by
  cases cs with
  | nil => rw [digitsCore.eq_2, if_pos hc]
  | cons d ds => rw [digitsCore.eq_3, if_pos hc]

theorem digitsCore_digits : ∀ (ds : List Char) (a : Nat), (∀ c ∈ ds, isDig c = true) →
    digitsCore a ds = some (digitsFold a ds) := by
  intro ds
  induction ds with
  | nil => intro a _; rfl
  | cons c cs ih =>
    intro a h
    have hc : isDig c = true := h c (List.mem_cons_self c cs)
    rw [digitsCore_cons_dig a hc cs]
    rw [ih _ (fun d hd => h d (List.mem_cons_of_mem c hd))]
    rfl

theorem parseDigits_digits (ds : List Char) (hne : ds ≠ []) (h : ∀ c ∈ ds, isDig c = true) :
    parseDigits ds = some (digitsFold 0 ds) := by
  cases ds with
  | nil => exact absurd rfl hne
  | cons c cs =>
    have hc : isDig c = true := h c (List.mem_cons_self c cs)
    simp only [parseDigits, if_pos hc]
    rw [digitsCore_digits cs _ (fun d hd => h d (List.mem_cons_of_mem c hd))]
    simp [digitsFold]

theorem parseDigits_natDigits (n : Nat) : parseDigits (natDigits n) = some n := by
  rw [parseDigits_digits (natDigits n) (natDigits_ne_nil n) (natDigits_isDig n)]
  rw [natDigits_fold]
  simp

theorem natDigits_injective {a b : Nat} (h : natDigits a = natDigits b) : a = b := by
  have ha := parseDigits_natDigits a
  rw [h, parseDigits_natDigits b] at ha
  exact (Option.some.inj ha).symm

theorem pad2_isDig (n : Nat) : ∀ c ∈ pad2 n, isDig c = true := by
  intro c hc
  unfold pad2 at hc
  by_cases h10 : n < 10
  · rw [if_pos h10] at hc
    rcases List.mem_cons.mp hc with h1 | h2
    · subst h1; decide
    · exact natDigits_isDig n c h2
  · rw [if_neg h10] at hc
    exact natDigits_isDig n c hc

theorem parseDigits_pad2 (n : Nat) : parseDigits (pad2 n) = some n := by
  unfold pad2
  by_cases h10 : n < 10
  · rw [if_pos h10]
    have h0 : isDig '0' = true := by decide
    simp only [parseDigits, if_pos h0]
    rw [digitsCore_digits _ _ (natDigits_isDig n)]
    have : ('0').toNat - 48 = 0 := by decide
    rw [this, natDigits_fold]
    simp
  · rw [if_neg h10]
    exact parseDigits_natDigits n

theorem pad2_injective {a b : Nat} (h : pad2 a = pad2 b) : a = b := by
  have ha := parseDigits_pad2 a
  rw [h, parseDigits_pad2 b] at ha
  exact (Option.some.inj ha).symm

theorem pyInt_natDigits (m : Nat) : pyInt (natDigits m) = some (m : Int) := by
  obtain ⟨c, cs, hcc⟩ := List.exists_cons_of_ne_nil (natDigits_ne_nil m)
  have hc : isDig c = true := by
    have := natDigits_isDig m c
    rw [hcc] at this
    exact this (List.mem_cons_self c cs)
  rw [hcc]
  have hp : c ≠ '+' := isDig_ne hc (by decide)
  have hm : c ≠ '-' := isDig_ne hc (by decide)
  simp only [pyInt, if_neg hp, if_neg hm]
  rw [← hcc, parseDigits_natDigits]
  rfl

theorem pyInt_intRepr (n : Int) : pyInt (intRepr n) = some n := by
  unfold intRepr
  by_cases h : n < 0
  · rw [if_pos h]
    have hneg : pyInt ('-' :: natDigits (-n).toNat) =
        (parseDigits (natDigits (-n).toNat)).map (fun x => -(x : Int)) := by
      simp [pyInt]
    rw [hneg, parseDigits_natDigits]
    have hred : (some ((-n).toNat)).map (fun x => -(x : Int)) =
        some (-(((-n).toNat : Nat) : Int)) := rfl
    rw [hred]
    congr 1
    omega
  · rw [if_neg h]
    rw [pyInt_natDigits]
    congr 1
    omega

theorem dropWhile_noop {p : Char → Bool} {l : List Char} (h : ∀ c ∈ l, p c = false) :
    l.dropWhile p = l := by
  cases l with
  | nil => rfl
  | cons c cs =>
    rw [List.dropWhile_cons]
    rw [h c (List.mem_cons_self c cs)]
    simp

theorem pyStrip_noop {l : List Char} (h : ∀ c ∈ l, pyIsSpace c = false) : pyStrip l = l := by
  unfold pyStrip
  rw [dropWhile_noop h]
  rw [dropWhile_noop (fun c hc => h c (List.mem_reverse.mp hc))]
  exact List.reverse_reverse l

theorem takeBeforeHash_noop {l : List Char} (h : ∀ c ∈ l, c ≠ '#') : takeBeforeHash l = l := by
  induction l with
  | nil => rfl
  | cons c cs ih =>
    simp only [takeBeforeHash, if_neg (h c (List.mem_cons_self c cs))]
    rw [ih (fun d hd => h d (List.mem_cons_of_mem c hd))]

theorem isPrefixOf_append_self (p r : List Char) : p.isPrefixOf (p ++ r) = true := by
  induction p with
  | nil => simp [List.isPrefixOf]
  | cons c cs ih => simp [List.isPrefixOf, ih]

theorem isPrefixOf_self (p : List Char) : p.isPrefixOf p = true := by
  have := isPrefixOf_append_self p []
  rwa [List.append_nil] at this

theorem pyStartsWith_append (p r : List Char) : pyStartsWith (p ++ r) p = true :=
  isPrefixOf_append_self p r

theorem pyEndsWith_append (s p : List Char) : pyEndsWith (s ++ p) p = true := by
  unfold pyEndsWith
  rw [List.reverse_append]
  exact isPrefixOf_append_self _ _

theorem rstripNl_append_nl (s : List Char) : rstripNl (s ++ ['\n']) = rstripNl s := by
  unfold rstripNl
  rw [List.reverse_append]
  simp [List.dropWhile_cons]

theorem countNl_append (a b : List Char) : countNl (a ++ b) = countNl a + countNl b := by
  induction a with
  | nil => simp [countNl]
  | cons c cs ih =>
    show (if c = '\n' then 1 else 0) + countNl (cs ++ b) =
      ((if c = '\n' then 1 else 0) + countNl cs) + countNl b
    rw [ih]
    omega

theorem countNl_eq_zero {l : List Char} (h : ∀ c ∈ l, c ≠ '\n') : countNl l = 0 := by
  induction l with
  | nil => rfl
  | cons c cs ih =>
    simp only [countNl, if_neg (h c (List.mem_cons_self c cs))]
    have := ih (fun d hd => h d (List.mem_cons_of_mem c hd))
    omega

theorem splitNl_ne_nil (s : List Char) : splitNl s ≠ [] := by
  induction s with
  | nil => simp [splitNl]
  | cons c cs ih =>
    by_cases hc : c = '\n'
    · simp [splitNl, if_pos hc]
    · cases hsp : splitNl cs with
      | nil => exact absurd hsp ih
      | cons h t => simp [splitNl, if_neg hc, hsp]

theorem splitNl_length (s : List Char) : (splitNl s).length = countNl s + 1 := by
  induction s with
  | nil => rfl
  | cons c cs ih =>
    by_cases hc : c = '\n'
    · simp only [splitNl, if_pos hc, countNl, if_pos hc, List.length_cons]
      omega
    · cases hsp : splitNl cs with
      | nil => exact absurd hsp (splitNl_ne_nil cs)
      | cons h t =>
        simp only [splitNl, if_neg hc, hsp, countNl, if_neg hc, List.length_cons]
        rw [hsp] at ih
        simp only [List.length_cons] at ih
        omega

theorem joinNl_cons_cons (p q : List Char) (rs : List (List Char)) :
    joinNl (p :: q :: rs) = p ++ '\n' :: joinNl (q :: rs) := rfl

theorem countNl_joinNl : ∀ (parts : List (List Char)), parts ≠ [] →
    (∀ p ∈ parts, countNl p = 0) → countNl (joinNl parts) = parts.length - 1 := by
  intro parts
  induction parts with
  | nil => intro h; exact absurd rfl h
  | cons p rest ih =>
    intro _ hall
    cases rest with
    | nil =>
      simp only [joinNl, List.length_singleton]
      rw [hall p (List.mem_cons_self p [])]
    | cons q rs =>
      rw [joinNl_cons_cons, countNl_append]
      have h1 : countNl ('\n' :: joinNl (q :: rs)) = 1 + countNl (joinNl (q :: rs)) := by
        simp [countNl]
      rw [h1, hall p (List.mem_cons_self p _)]
      rw [ih (by simp) (fun x hx => hall x (List.mem_cons_of_mem p hx))]
      simp only [List.length_cons]
      omega

theorem pyStartsWith_joinNl_cons (x : List Char) (xs : List (List Char)) :
    pyStartsWith (joinNl (x :: xs)) x = true := by
  cases xs with
  | nil => exact isPrefixOf_self x
  | cons y ys =>
    rw [joinNl_cons_cons]
    exact pyStartsWith_append x _

theorem digit_sep_inj {sep : Char} (hsep : isDig sep = false) :
    ∀ (d1 d2 r1 r2 : List Char), (∀ c ∈ d1, isDig c = true) → (∀ c ∈ d2, isDig c = true) →
      d1 ++ sep :: r1 = d2 ++ sep :: r2 → d1 = d2 ∧ r1 = r2 := by
  intro d1
  induction d1 with
  | nil =>
    intro d2 r1 r2 _ h2 he
    cases d2 with
    | nil =>
      simp only [List.nil_append, List.cons.injEq] at he
      exact ⟨rfl, he.2⟩
    | cons c cs =>
      simp only [List.nil_append, List.cons_append, List.cons.injEq] at he
      exact absurd he.1.symm (isDig_ne (h2 c (List.mem_cons_self c cs)) hsep)
  | cons a as ih =>
    intro d2 r1 r2 h1 h2 he
    cases d2 with
    | nil =>
      simp only [List.cons_append, List.nil_append, List.cons.injEq] at he
      exact absurd he.1 (isDig_ne (h1 a (List.mem_cons_self a as)) hsep)
    | cons b bs =>
      simp only [List.cons_append, List.cons.injEq] at he
      obtain ⟨hab, htl⟩ := he
      obtain ⟨heq, hr⟩ := ih bs r1 r2 (fun c hc => h1 c (List.mem_cons_of_mem a hc))
        (fun c hc => h2 c (List.mem_cons_of_mem b hc)) htl
      exact ⟨by rw [hab, heq], hr⟩

theorem intRepr_no_hash (n : Int) : ∀ c ∈ intRepr n, c ≠ '#' := by
  intro c hc
  unfold intRepr at hc
  by_cases h : n < 0
  · rw [if_pos h] at hc
    rcases List.mem_cons.mp hc with h1 | h2
    · subst h1; decide
    · exact isDig_ne (natDigits_isDig _ c h2) (by decide)
  · rw [if_neg h] at hc
    exact isDig_ne (natDigits_isDig _ c hc) (by decide)

theorem intRepr_no_space (n : Int) : ∀ c ∈ intRepr n, pyIsSpace c = false := by
  intro c hc
  unfold intRepr at hc
  by_cases h : n < 0
  · rw [if_pos h] at hc
    rcases List.mem_cons.mp hc with h1 | h2
    · subst h1; decide
    · exact isDig_not_space (natDigits_isDig _ c h2)
  · rw [if_neg h] at hc
    exact isDig_not_space (natDigits_isDig _ c hc)


theorem insSD_mem (x a : Int) : ∀ l, a ∈ insSD x l ↔ a = x ∨ a ∈ l := by
  intro l
  induction l with
  | nil => simp [insSD]
  | cons y ys ih =>
    by_cases h1 : x < y
    · simp only [insSD, if_pos h1]
      simp [List.mem_cons]
    · by_cases h2 : x = y
      · simp only [insSD, if_neg h1, if_pos h2]
        subst h2
        simp [List.mem_cons]
      · simp only [insSD, if_neg h1, if_neg h2]
        simp only [List.mem_cons, ih]
        tauto

theorem insSD_pairwise (x : Int) : ∀ l, l.Pairwise (· < ·) → (insSD x l).Pairwise (· < ·) := by
  intro l
  induction l with
  | nil => intro _; simp [insSD]
  | cons y ys ih =>
    intro h
    obtain ⟨hy, hys⟩ := List.pairwise_cons.mp h
    by_cases h1 : x < y
    · simp only [insSD, if_pos h1]
      refine List.pairwise_cons.mpr ⟨?_, h⟩
      intro a ha
      rcases List.mem_cons.mp ha with h3 | h3
      · subst h3; exact h1
      · exact lt_trans h1 (hy a h3)
    · by_cases h2 : x = y
      · simp only [insSD, if_neg h1, if_pos h2]
        exact h
      · simp only [insSD, if_neg h1, if_neg h2]
        refine List.pairwise_cons.mpr ⟨?_, ih hys⟩
        intro a ha
        rcases (insSD_mem x a ys).mp ha with h3 | h3
        · subst h3; omega
        · exact hy a h3

theorem sortedDedup_cons (c : Int) (cs : List Int) :
    sortedDedup (c :: cs) = insSD c (sortedDedup cs) := rfl

theorem sortedDedup_pairwise (l : List Int) : (sortedDedup l).Pairwise (· < ·) := by
  induction l with
  | nil => simp [sortedDedup]
  | cons c cs ih =>
    rw [sortedDedup_cons]
    exact insSD_pairwise c _ ih

theorem sortedDedup_mem (a : Int) (l : List Int) : a ∈ sortedDedup l ↔ a ∈ l := by
  induction l with
  | nil => simp [sortedDedup]
  | cons c cs ih =>
    rw [sortedDedup_cons]
    rw [insSD_mem, ih]
    simp [List.mem_cons]

theorem sortedDedup_nodup (l : List Int) : (sortedDedup l).Nodup :=
  (sortedDedup_pairwise l).imp (fun h => ne_of_lt h)

theorem entryCheck_ok_inner {fc : Nat} {nm : List Char} {e : YVal} {i : Int}
    (h : entryCheck fc nm e = .ok i) : entryCheckInner fc nm e = .ok i := by
  unfold entryCheck at h
  cases hi : entryCheckInner fc nm e with
  | ok j =>
    rw [hi] at h
    exact h
  | error err =>
    rw [hi] at h
    exact Except.noConfusion h

theorem validateFileIndices_mem (fc : Nat) (nm : List Char) :
    ∀ (es : List YVal) (v : List Int), validateFileIndices fc nm es = .ok v →
      ∀ x : Int, x ∈ v ↔ ∃ e ∈ es, entryCheck fc nm e = .ok x := by
  intro es
  induction es with
  | nil =>
    intro v h x
    simp only [validateFileIndices] at h
    rw [← Except.ok.inj h]
    simp
  | cons e es ih =>
    intro v h x
    simp only [validateFileIndices] at h
    cases hc : entryCheck fc nm e with
    | error err => rw [hc] at h; exact absurd h (by simp)
    | ok i =>
      rw [hc] at h
      cases hr : validateFileIndices fc nm es with
      | error err => rw [hr] at h; exact absurd h (by simp)
      | ok is =>
        rw [hr] at h
        rw [← Except.ok.inj h]
        simp only [List.mem_cons]
        constructor
        · intro hx
          rcases hx with h1 | h1
          · exact ⟨e, Or.inl rfl, by rw [← h1] at hc; exact hc⟩
          · obtain ⟨e', he', hok⟩ := (ih is hr x).mp h1
            exact ⟨e', Or.inr he', hok⟩
        · rintro ⟨e', he', hok⟩
          rcases he' with h1 | h1
          · subst h1
            rw [hc] at hok
            exact Or.inl (Except.ok.inj hok).symm
          · exact Or.inr ((ih is hr x).mpr ⟨e', h1, hok⟩)

theorem relCheck_ok_inner {n : Nat} {r : RelItem} {p : Int × Int}
    (h : relCheck n r = .ok p) : relCheckInner n r = .ok p := by
  unfold relCheck at h
  cases hi : relCheckInner n r with
  | ok q =>
    rw [hi] at h
    exact h
  | error err =>
    rw [hi] at h
    exact Except.noConfusion h

theorem relCheckInner_ok_range {n : Nat} {r : RelItem} {p : Int × Int}
    (h : relCheckInner n r = .ok p) :
    0 ≤ p.1 ∧ p.1 < (n : Int) ∧ 0 ≤ p.2 ∧ p.2 < (n : Int) := by
  unfold relCheckInner at h
  split at h
  · exact Except.noConfusion h
  · split at h
    · exact Except.noConfusion h
    · split at h
      · rename_i hc
        rw [← Except.ok.inj h]
        exact hc
      · exact Except.noConfusion h

theorem analyzeRelValidate_range (n : Nat) :
    ∀ (rs : List RelItem) (os : List RelOut), analyzeRelValidate n rs = .ok os →
      ∀ e ∈ os, 0 ≤ e.fromIdx ∧ e.fromIdx < (n : Int) ∧ 0 ≤ e.toIdx ∧ e.toIdx < (n : Int) := by
  intro rs
  induction rs with
  | nil =>
    intro os h e he
    simp only [analyzeRelValidate] at h
    rw [← Except.ok.inj h] at he
    exact absurd he (List.not_mem_nil e)
  | cons r rest ih =>
    intro os h e he
    simp only [analyzeRelValidate] at h
    cases hc : relCheck n r with
    | error err => rw [hc] at h; exact absurd h (by simp)
    | ok p =>
      obtain ⟨fi, ti⟩ := p
      rw [hc] at h
      cases hr : analyzeRelValidate n rest with
      | error err => rw [hr] at h; exact absurd h (by simp)
      | ok os' =>
        rw [hr] at h
        rw [← Except.ok.inj h] at he
        rcases List.mem_cons.mp he with h1 | h1
        · have hrange := relCheckInner_ok_range (relCheck_ok_inner hc)
          rw [h1]
          exact hrange
        · exact ih os' hr e h1

theorem listingFrom_length : ∀ (names : List (List Char)) (i : Nat),
    (listingFrom i names).length = names.length := by
  intro names
  induction names with
  | nil => intro i; rfl
  | cons nm rest ih =>
    intro i
    simp only [listingFrom, List.length_cons, ih]

theorem listingFrom_no_nl : ∀ (names : List (List Char)) (i : Nat),
    (∀ nm ∈ names, '\n' ∉ nm) → ∀ p ∈ listingFrom i names, countNl p = 0 := by
  intro names
  induction names with
  | nil => intro i _ p hp; exact absurd hp (List.not_mem_nil p)
  | cons nm rest ih =>
    intro i h p hp
    rcases List.mem_cons.mp hp with h1 | h1
    · subst h1
      rw [countNl_append]
      have hd : countNl (natDigits i) = 0 :=
        countNl_eq_zero (fun c hc => isDig_ne (natDigits_isDig i c hc) (by decide))
      have hn : countNl nm = 0 := by
        refine countNl_eq_zero (fun c hc hne => ?_)
        rw [hne] at hc
        exact h nm (List.mem_cons_self nm rest) hc
      simp [countNl, hd, hn]
    · exact ih (i + 1) (fun x hx => h x (List.mem_cons_of_mem nm hx)) p h1

theorem numAbstractionsBound_eq (names : List (List Char)) (hne : names ≠ [])
    (hnl : ∀ nm ∈ names, '\n' ∉ nm) : numAbstractionsBound names = names.length := by
  unfold numAbstractionsBound abstractionListing
  rw [splitNl_length]
  have hlne : listingFrom 0 names ≠ [] := by
    intro hcon
    have := listingFrom_length names 0
    rw [hcon] at this
    simp at this
    exact hne (List.eq_nil_of_length_eq_zero this.symm)
  rw [countNl_joinNl (listingFrom 0 names) hlne (listingFrom_no_nl names 0 hnl)]
  rw [listingFrom_length]
  have : names.length ≥ 1 := by
    cases names with
    | nil => exact absurd rfl hne
    | cons a b => simp
  omega

theorem keys_dictInsert (k v : List Char) :
    ∀ m (a : List Char), a ∈ (dictInsert k v m).map Prod.fst ↔ a = k ∨ a ∈ m.map Prod.fst := by
  intro m
  induction m with
  | nil => intro a; simp [dictInsert]
  | cons kv rest ih =>
    obtain ⟨k', v'⟩ := kv
    intro a
    by_cases hkk : k = k'
    · simp only [dictInsert, if_pos hkk, List.map_cons, List.mem_cons]
      subst hkk
      tauto
    · simp only [dictInsert, if_neg hkk, List.map_cons, List.mem_cons, ih]
      tauto

theorem uniq_dictInsert (k v : List Char) : ∀ m, UniqKeys m → UniqKeys (dictInsert k v m) := by
  intro m
  induction m with
  | nil => intro _; simp [dictInsert, UniqKeys]
  | cons kv rest ih =>
    obtain ⟨k', v'⟩ := kv
    intro hu
    unfold UniqKeys at hu
    simp only [List.map_cons] at hu
    obtain ⟨hk', hrest⟩ := List.nodup_cons.mp hu
    by_cases hkk : k = k'
    · unfold UniqKeys
      simp only [dictInsert, if_pos hkk, List.map_cons]
      subst hkk
      exact List.nodup_cons.mpr ⟨hk', hrest⟩
    · unfold UniqKeys
      simp only [dictInsert, if_neg hkk, List.map_cons]
      refine List.nodup_cons.mpr ⟨?_, ih hrest⟩
      intro hmem
      rcases (keys_dictInsert k v rest k').mp hmem with h1 | h1
      · exact hkk h1.symm
      · exact hk' h1

theorem mem_dictInsert (k v a b : List Char) :
    ∀ m, UniqKeys m → ((a, b) ∈ dictInsert k v m ↔
      (a = k ∧ b = v) ∨ ((a, b) ∈ m ∧ a ≠ k)) := by
  intro m
  induction m with
  | nil =>
    intro _
    simp [dictInsert, Prod.ext_iff]
  | cons kv rest ih =>
    obtain ⟨k', v'⟩ := kv
    intro hu
    unfold UniqKeys at hu
    simp only [List.map_cons] at hu
    obtain ⟨hk', hrest⟩ := List.nodup_cons.mp hu
    have hu' : UniqKeys rest := hrest
    by_cases hkk : k = k'
    · simp only [dictInsert, if_pos hkk]
      subst hkk
      constructor
      · intro hmem
        rcases List.mem_cons.mp hmem with h1 | h1
        · have ha : a = k := congrArg Prod.fst h1
          have hb : b = v := congrArg Prod.snd h1
          exact Or.inl ⟨ha, hb⟩
        · have hne : a ≠ k := by
            intro hak
            apply hk'
            rw [← hak]
            exact List.mem_map_of_mem Prod.fst h1
          exact Or.inr ⟨List.mem_cons_of_mem _ h1, hne⟩
      · rintro (⟨ha, hb⟩ | ⟨hmem, hne⟩)
        · rw [ha, hb]
          exact List.mem_cons_self _ _
        · rcases List.mem_cons.mp hmem with h1 | h1
          · exact absurd (congrArg Prod.fst h1) hne
          · exact List.mem_cons_of_mem _ h1
    · simp only [dictInsert, if_neg hkk]
      constructor
      · intro hmem
        rcases List.mem_cons.mp hmem with h1 | h1
        · have ha : a = k' := congrArg Prod.fst h1
          have hb : b = v' := congrArg Prod.snd h1
          refine Or.inr ⟨?_, ?_⟩
          · rw [ha, hb]
            exact List.mem_cons_self _ _
          · rw [ha]
            exact fun he => hkk he.symm
        · rcases (ih hu').mp h1 with ⟨ha, hb⟩ | ⟨hm, hne⟩
          · exact Or.inl ⟨ha, hb⟩
          · exact Or.inr ⟨List.mem_cons_of_mem _ hm, hne⟩
      · rintro (⟨ha, hb⟩ | ⟨hmem, hne⟩)
        · exact List.mem_cons_of_mem _ ((ih hu').mpr (Or.inl ⟨ha, hb⟩))
        · rcases List.mem_cons.mp hmem with h1 | h1
          · rw [h1]
            exact List.mem_cons_self _ _
          · exact List.mem_cons_of_mem _ ((ih hu').mpr (Or.inr ⟨h1, hne⟩))

theorem intRepr_nonneg {i : Int} (h : 0 ≤ i) : intRepr i = natDigits i.toNat := by
  unfold intRepr
  rw [if_neg (by omega)]

theorem fileKey_inj {i j : Int} {p q : List Char} (hi : 0 ≤ i) (hj : 0 ≤ j)
    (h : fileKey i p = fileKey j q) : i = j ∧ p = q := by
  unfold fileKey at h
  rw [intRepr_nonneg hi, intRepr_nonneg hj] at h
  obtain ⟨hd, hr⟩ := digit_sep_inj (by decide : isDig ' ' = false)
    (natDigits i.toNat) (natDigits j.toNat) ('#' :: ' ' :: p) ('#' :: ' ' :: q)
    (natDigits_isDig _) (natDigits_isDig _) h
  refine ⟨?_, ?_⟩
  · have := natDigits_injective hd
    omega
  · simpa using hr

theorem mem_gcfiAux (files : List (List Char × List Char)) :
    ∀ (is : List Int), ∀ (m : List (List Char × List Char)), UniqKeys m →
      ∀ a b : List Char,
      ((a, b) ∈ gcfiAux files is m ↔
        (∃ i pc, i ∈ is ∧ 0 ≤ i ∧ files[i.toNat]? = some pc ∧
          a = fileKey i pc.1 ∧ b = pc.2)
        ∨ ((a, b) ∈ m ∧ ∀ i pc, i ∈ is → 0 ≤ i → files[i.toNat]? = some pc →
            a ≠ fileKey i pc.1)) := by
  intro is
  induction is with
  | nil =>
    intro m _ a b
    simp [gcfiAux]
  | cons i is ih =>
    intro m hu a b
    by_cases hrange : 0 ≤ i ∧ i < (files.length : Int)
    · have hlt : i.toNat < files.length := by omega
      have hget : files[i.toNat]? = some (files.get ⟨i.toNat, hlt⟩) := by
        rw [List.getElem?_eq_getElem hlt]
        rw [List.get_eq_getElem]
      have hstep : gcfiAux files (i :: is) m =
          gcfiAux files is
            (dictInsert (fileKey i (files.get ⟨i.toNat, hlt⟩).1)
              (files.get ⟨i.toNat, hlt⟩).2 m) := by
        rw [gcfiAux]
        rw [dif_pos hrange]
      set pc0 := files.get ⟨i.toNat, hlt⟩ with hpc0
      rw [hstep]
      rw [ih (dictInsert (fileKey i pc0.1) pc0.2 m)
        (uniq_dictInsert (fileKey i pc0.1) pc0.2 m hu) a b]
      constructor
      · rintro (⟨i', pc', hi'mem, hi'0, hget', ha, hb⟩ | ⟨hmem, hall⟩)
        · exact Or.inl ⟨i', pc', List.mem_cons_of_mem i hi'mem, hi'0, hget', ha, hb⟩
        · rcases (mem_dictInsert (fileKey i pc0.1) pc0.2 a b m hu).mp hmem with
            ⟨hak, hbv⟩ | ⟨hm, hne⟩
          · exact Or.inl ⟨i, pc0, List.mem_cons_self i is, hrange.1, hget, hak, hbv⟩
          · refine Or.inr ⟨hm, ?_⟩
            intro i' pc' hi' h0' hget''
            rcases List.mem_cons.mp hi' with h1 | h1
            · subst h1
              have hpc : pc' = pc0 := by
                rw [hget] at hget''
                exact (Option.some.inj hget'').symm
              rw [hpc]
              exact hne
            · exact hall i' pc' h1 h0' hget''
      · rintro (⟨i', pc', hi'mem, hi'0, hget', ha, hb⟩ | ⟨hmem, hall⟩)
        · rcases List.mem_cons.mp hi'mem with h1 | h1
          · subst h1
            have hpc : pc' = pc0 := by
              rw [hget] at hget'
              exact (Option.some.inj hget').symm
            subst hpc
            by_cases hP : ∃ j pcj, j ∈ is ∧ 0 ≤ j ∧ files[j.toNat]? = some pcj ∧
                a = fileKey j pcj.1
            · obtain ⟨j, pcj, hjmem, hj0, hjget, haj⟩ := hP
              have hkeq : fileKey i' pc0.1 = fileKey j pcj.1 := ha.symm.trans haj
              obtain ⟨hij, hpq⟩ := fileKey_inj hi'0 hj0 hkeq
              have hjget2 := hjget
              rw [← hij] at hjget2
              rw [hget] at hjget2
              have hpcj : pcj = pc0 := (Option.some.inj hjget2).symm
              refine Or.inl ⟨j, pcj, hjmem, hj0, hjget, haj, ?_⟩
              rw [hpcj]
              exact hb
            · refine Or.inr ⟨?_, ?_⟩
              · exact (mem_dictInsert (fileKey i' pc0.1) pc0.2 a b m hu).mpr
                  (Or.inl ⟨ha, hb⟩)
              · intro j pcj hjmem hj0 hjget hkey
                exact hP ⟨j, pcj, hjmem, hj0, hjget, hkey⟩
          · exact Or.inl ⟨i', pc', h1, hi'0, hget', ha, hb⟩
        · have hnk : a ≠ fileKey i pc0.1 :=
            hall i pc0 (List.mem_cons_self i is) hrange.1 hget
          refine Or.inr ⟨?_, ?_⟩
          · exact (mem_dictInsert (fileKey i pc0.1) pc0.2 a b m hu).mpr
              (Or.inr ⟨hmem, hnk⟩)
          · exact fun j pcj hj hj0 hjget => hall j pcj (List.mem_cons_of_mem i hj) hj0 hjget
    · have hstep : gcfiAux files (i :: is) m = gcfiAux files is m := by
        rw [gcfiAux]
        rw [dif_neg hrange]
      rw [hstep, ih m hu a b]
      have hskip : ∀ pc : List Char × List Char, ¬(0 ≤ i ∧ files[i.toNat]? = some pc) := by
        rintro pc ⟨h0, hsome⟩
        apply hrange
        refine ⟨h0, ?_⟩
        have hlt : i.toNat < files.length := by
          by_contra hge
          rw [List.getElem?_eq_none (by omega)] at hsome
          exact Option.noConfusion hsome
        omega
      constructor
      · rintro (⟨i', pc', h1, h2, h3, h4, h5⟩ | ⟨hm, hall⟩)
        · exact Or.inl ⟨i', pc', List.mem_cons_of_mem i h1, h2, h3, h4, h5⟩
        · refine Or.inr ⟨hm, ?_⟩
          intro j pcj hj hj0 hjget
          rcases List.mem_cons.mp hj with h1 | h1
          · subst h1
            exact absurd ⟨hj0, hjget⟩ (hskip pcj)
          · exact hall j pcj h1 hj0 hjget
      · rintro (⟨i', pc', h1, h2, h3, h4, h5⟩ | ⟨hm, hall⟩)
        · rcases List.mem_cons.mp h1 with hh | hh
          · subst hh
            exact absurd ⟨h2, h3⟩ (hskip pc')
          · exact Or.inl ⟨i', pc', hh, h2, h3, h4, h5⟩
        · exact Or.inr ⟨hm, fun j pcj hj hj0 hjget =>
            hall j pcj (List.mem_cons_of_mem i hj) hj0 hjget⟩

/-- Claim C1: the claim states that a file-index entry coercing to an integer
outside the valid range makes the stage fail with a range error naming the
index, the abstraction and the valid range, distinct from the parse error.
The code instead raises its range ValueError inside the same try block whose
except clause catches ValueError, so the range error is swallowed and replaced
by the parse-style error: on file count 1, item X and entry 5 the stage fails
with the parseEntry error and not with the invalidFileIndex error. -/
theorem identify_range_error_masked :
    validateFileIndices 1 (['X']) [YVal.yInt 5] =
      .error (StageErr.parseEntry (YVal.yInt 5) ['X']) ∧
    validateFileIndices 1 (['X']) [YVal.yInt 5] ≠
      .error (StageErr.invalidFileIndex 5 ['X'] 1) := by
  decide

/-- Claim C2, counterexample: a YAML boolean true is accepted by the
Abstraction Identifier coercion (Python isinstance treats bool as int, giving
index 1) but rejected by the Relationship Analyzer coercion (int of the string
"True" raises), so the two coercions do not accept the same inputs. -/
theorem coercion_bool_diverges :
    ia_coerce (YVal.yBool true) = some 1 ∧ ar_coerce (YVal.yBool true) = none := by
  decide

/-- Claim C2, amended: for every non-boolean YAML value (with non-scalar
values whose textual rendering contains no hash character, true of every
rendering of YAML floats, nulls, lists, dicts, dates), the Abstraction
Identifier coercion and the Relationship Analyzer coercion accept exactly the
same inputs and return the same integer. -/
theorem relationship_identifier_coercions_agree (v : YVal) (h : coerceAgreeScope v) :
    ia_coerce v = ar_coerce v := by
  cases v with
  | yInt n =>
    show some n = pyInt (pyStrip (takeBeforeHash (intRepr n)))
    rw [takeBeforeHash_noop (intRepr_no_hash n)]
    rw [pyStrip_noop (intRepr_no_space n)]
    rw [pyInt_intRepr]
  | yBool b => exact h.elim
  | yStr s =>
    by_cases hs : '#' ∈ s
    · show (if '#' ∈ s then pyInt (pyStrip (takeBeforeHash s)) else pyInt (pyStrip s)) =
        pyInt (pyStrip (takeBeforeHash s))
      rw [if_pos hs]
    · show (if '#' ∈ s then pyInt (pyStrip (takeBeforeHash s)) else pyInt (pyStrip s)) =
        pyInt (pyStrip (takeBeforeHash s))
      rw [if_neg hs]
      rw [takeBeforeHash_noop (fun c hc he => hs (he ▸ hc))]
  | yOther r =>
    show pyInt (pyStrip r) = pyInt (pyStrip (takeBeforeHash r))
    rw [takeBeforeHash_noop (fun c hc he => h (he ▸ hc))]

theorem relationship_identifier_coercions_agree_witness :
    ia_coerce (YVal.yStr (("3 # main.py").toList)) =
      ar_coerce (YVal.yStr (("3 # main.py").toList)) :=
  relationship_identifier_coercions_agree (YVal.yStr (("3 # main.py").toList)) True.intro

/-- Claim C3: the claim states that the chapter order [0, 0, 1] with 2
abstractions fails with a duplicate error naming index 0 before the
completeness check. The duplicate ValueError is raised inside the per-entry
try block whose except clause catches it, so the stage does fail at the second
entry, before the completeness check, but with the parse-style error naming
the entry, not the duplicateOrderIndex error. -/
theorem order_duplicate_error_masked :
    orderChaptersValidate 2 [YVal.yInt 0, YVal.yInt 0, YVal.yInt 1] =
      .error (StageErr.orderParseEntry (YVal.yInt 0)) ∧
    orderChaptersValidate 2 [YVal.yInt 0, YVal.yInt 0, YVal.yInt 1] ≠
      .error (StageErr.duplicateOrderIndex 0) := by
  decide

/-- Claim C4: the chapter order [0] with 2 abstractions fails with the
completeness error naming the ordered length 1, the abstraction count 2 and
the missing index set, computed by missingIndices as the set difference
between the range of 2 and the seen indices, here the singleton 1. The
completeness raise sits outside the per-entry try block, so it is not
masked. -/
theorem order_completeness_missing :
    orderChaptersValidate 2 [YVal.yInt 0] =
      .error (StageErr.orderIncomplete 1 2 [1]) ∧
    missingIndices 2 [0] = [1] := by
  decide

/-- Claim C5: for every abstraction item whose file_indices pass validation,
the stored files field is strictly ascending, duplicate-free, its members are
exactly the validly parsed indices of the entries, and every member occurs
exactly once, so an index repeated in the input appears once in the output. -/
theorem identify_files_sorted_dedup (fc : Nat) (item : AbsItem) (nm ds : List Char)
    (fs : List Int) (h : identifyItem fc item = .ok (nm, ds, fs)) :
    fs.Pairwise (· < ·) ∧ fs.Nodup ∧
    (∀ x : Int, x ∈ fs ↔ ∃ e ∈ item.fileIndices, entryCheck fc item.name e = .ok x) ∧
    (∀ x ∈ fs, fs.count x = 1) := by
  unfold identifyItem at h
  cases hv : validateFileIndices fc item.name item.fileIndices with
  | error err => rw [hv] at h; exact Except.noConfusion h
  | ok v =>
    rw [hv] at h
    have h' := Except.ok.inj h
    have hfs : sortedDedup v = fs := congrArg (fun t => t.2.2) h'
    rw [← hfs]
    refine ⟨sortedDedup_pairwise v, sortedDedup_nodup v, ?_, ?_⟩
    · intro x
      rw [sortedDedup_mem]
      exact validateFileIndices_mem fc item.name item.fileIndices v hv x
    · intro x hx
      exact List.count_eq_one_of_mem (sortedDedup_nodup v) hx

theorem identify_files_sorted_dedup_witness :
    ([0, 2] : List Int).Pairwise (· < ·) ∧ ([0, 2] : List Int).Nodup ∧
    (∀ x : Int, x ∈ ([0, 2] : List Int) ↔
      ∃ e ∈ [YVal.yInt 2, YVal.yInt 0, YVal.yInt 2], entryCheck 3 (['X']) e = .ok x) ∧
    (∀ x ∈ ([0, 2] : List Int), ([0, 2] : List Int).count x = 1) :=
  identify_files_sorted_dedup 3 ⟨['X'], [], [YVal.yInt 2, YVal.yInt 0, YVal.yInt 2]⟩
    ['X'] [] [0, 2] (by decide)

/-- Claim C6, counterexample: the heading step checks only the prefix without
the name, so a response already starting with that prefix is returned
unchanged even when its heading is wrong: for chapter 1 named Foo, a response
whose first line also starts with the number prefix is kept as is and does not
begin with the expected heading. -/
theorem write_chapters_heading_cex :
    normalizeHeading 1 (("Foo").toList) (("# Chapter 10: Bar").toList) =
      ("# Chapter 10: Bar").toList ∧
    pyStartsWith (("# Chapter 10: Bar").toList) (heading 1 (("Foo").toList)) = false := by
  decide

/-- Claim C6, amended: the heading step never fails; when the stripped
response does not begin with the number prefix, the result begins with the
full expected heading (an existing leading heading line is replaced, or the
heading is prepended); when the stripped response already begins with the
number prefix, even with a wrong chapter name after it, the response is
returned unchanged. -/
theorem write_chapters_heading_normalized (n : Nat) (nm cc : List Char) :
    (pyStartsWith (pyStrip cc) (headingNum n) = true → normalizeHeading n nm cc = cc) ∧
    (pyStartsWith (pyStrip cc) (headingNum n) = false →
      pyStartsWith (normalizeHeading n nm cc) (heading n nm) = true) := by
  constructor
  · intro h
    unfold normalizeHeading
    rw [if_pos h]
  · intro h
    unfold normalizeHeading
    rw [if_neg (by simp [h])]
    by_cases h2 : pyStartsWith (pyStrip ((splitNl (pyStrip cc)).headD [])) ['#'] = true
    · rw [if_pos h2]
      exact pyStartsWith_joinNl_cons _ _
    · rw [if_neg h2]
      exact pyStartsWith_append _ _

theorem write_chapters_heading_normalized_witness :
    pyStartsWith (normalizeHeading 2 (("Foo").toList) (("hello").toList))
      (heading 2 (("Foo").toList)) = true :=
  (write_chapters_heading_normalized 2 (("Foo").toList) (("hello").toList)).2 (by decide)

/-- Claim C7, counterexample: for a chapter text ending in exactly one
newline, the code appends a further double newline, leaving two blank lines
before the footer, so the final document differs from the one the claim
describes, in which exactly one blank line precedes the footer regardless of
trailing newlines. -/
theorem combine_footer_cex :
    addAttribution ('b' :: 'o' :: 'd' :: 'y' :: '\n' :: []) ≠
      addAttributionPerSpec ('b' :: 'o' :: 'd' :: 'y' :: '\n' :: []) := by
  decide

/-- Claim C7, amended: every final chapter document is the chapter text
followed by the attribution footer with at least one blank line before it: the
part before the footer ends in a double newline and carries the chapter text
unchanged up to trailing newlines. Exactly one blank line is not guaranteed:
a text ending in one or in three or more newlines keeps extra blank lines. -/
theorem combine_footer_blank_line (cc : List Char) :
    ∃ s : List Char, addAttribution cc = s ++ footerText ∧
      pyEndsWith s ('\n' :: '\n' :: []) = true ∧ rstripNl s = rstripNl cc := by
  by_cases h : pyEndsWith cc ('\n' :: '\n' :: []) = true
  · refine ⟨cc, ?_, h, rfl⟩
    unfold addAttribution
    rw [if_pos h]
  · refine ⟨cc ++ ('\n' :: '\n' :: []), ?_, ?_, ?_⟩
    · unfold addAttribution
      rw [if_neg h]
    · exact pyEndsWith_append cc _
    · have h1 : cc ++ ('\n' :: '\n' :: []) = (cc ++ ['\n']) ++ ['\n'] := by simp
      rw [h1, rstripNl_append_nl, rstripNl_append_nl]

/-- Claim C8: chapter filenames are injective over positions: two distinct
zero-based positions give distinct filenames for any two names, because the
zero-padded decimal prefix consists of digits, the separator underscore is not
a digit, and the decimal rendering is injective, even past two digits. -/
theorem chapter_filenames_injective (i j : Nat) (na nb : List Char) (h : i ≠ j) :
    chapterFilename i na ≠ chapterFilename j nb := by
  intro he
  unfold chapterFilename at he
  obtain ⟨hd, _⟩ := digit_sep_inj (by decide : isDig '_' = false)
    (pad2 (i + 1)) (pad2 (j + 1)) _ _ (pad2_isDig _) (pad2_isDig _) he
  have := pad2_injective hd
  omega

theorem chapter_filenames_injective_witness :
    chapterFilename 0 (['A']) ≠ chapterFilename 1 (['A']) :=
  chapter_filenames_injective 0 1 ['A'] ['A'] (by decide)

/-- Claim C9: get_content_for_indices never fails and returns exactly the
entries keyed by the composite index-and-path string for the distinct
requested indices lying inside the file list, each mapped to that file
content; out-of-range requested indices contribute no entry. -/
theorem select_content_by_indices_spec (files : List (List Char × List Char))
    (indices : List Int) (k v : List Char) :
    (k, v) ∈ get_content_for_indices files indices ↔
      ∃ i pc, i ∈ indices ∧ 0 ≤ i ∧ files[i.toNat]? = some pc ∧
        k = fileKey i pc.1 ∧ v = pc.2 := by
  unfold get_content_for_indices
  rw [mem_gcfiAux files indices [] (by simp [UniqKeys]) k v]
  simp

/-- Claim C10: when the abstractions list is nonempty and no name contains a
newline, the line-count bound used by the Relationship Analyzer equals the
abstraction count, so every edge of a validated relationship list has from and
to indices inside the range of existing abstractions; and for the empty
abstractions list the bound is 1, not 0. -/
theorem analyze_relationships_bound :
    (∀ (names : List (List Char)) (rels : List RelItem) (os : List RelOut),
      names ≠ [] → (∀ nm ∈ names, '\n' ∉ nm) →
      numAbstractionsBound names = names.length ∧
      (analyzeRelValidate (numAbstractionsBound names) rels = .ok os →
        ∀ e ∈ os, 0 ≤ e.fromIdx ∧ e.fromIdx < (names.length : Int) ∧
          0 ≤ e.toIdx ∧ e.toIdx < (names.length : Int)))
    ∧ numAbstractionsBound [] = 1 := by
  constructor
  · intro names rels os hne hnl
    have hb := numAbstractionsBound_eq names hne hnl
    refine ⟨hb, ?_⟩
    intro hok e he
    have hr := analyzeRelValidate_range (numAbstractionsBound names) rels os hok e he
    rw [hb] at hr
    exact hr
  · rfl

theorem analyze_relationships_bound_witness :
    numAbstractionsBound [['A'], ['B']] = ([['A'], ['B']] : List (List Char)).length :=
  (analyze_relationships_bound.1 [['A'], ['B']] [] [] (by decide) (by decide)).1
